import Mathlib

/-! Equal-width binning (`pkg/common/discretize.go`).

A shallow embedding of the two binners of `discretize.go`.

Conventions of the embedding:

* `float32` values are rationals (`ℚ`): arithmetic is taken as exact, there
  is no rounding, no infinity and no NaN.
* Go `int` values are integers (`Int`) without wrap-around: the embedding
  covers interval counts below the largest machine integer, for which no loop
  counter (`i + 1`, `j + 1`) overflows.
* A `*tensor.Dense` is its flat backing (`List ℚ`); `Iterator()` walks the
  positions `0, 1, ..., len-1` in order and `GetF32 i` reads position `i`.
* A returned `error` is `Except.error`; a runtime panic is kept apart from
  returned errors wherever it can occur.
-/

namespace Discretize

/-! ## Errors -/

/-- The errors the binners return.  The payload is what the source formats
into the message. -/
inductive BinError where
  /-- `fmt.Errorf("v: %f not in range %f to %f", v, e.Low, e.High)` -/
  | notInRange (v low high : ℚ)
  /-- `fmt.Errorf("could not bin %v, out of range %v", v, bounds)` -/
  | couldNotBin (v : ℚ) (bounds : List ℚ)
  /-- A shape error of an element-wise tensor operation (`Sub`, `Div`). -/
  | shapeMismatch (n m : Nat)
  /-- Any other error handed back by a callee (the float conversion of a
  constructor input). -/
  | other (msg : String)
  deriving DecidableEq, Repr

/-! ## The scalar binner -/

/-- The struct `EqWidthBinner`.  The field `boundaries` of the source is never
written nor read and is left out. -/
structure EqWidthBinner where
  NumIntervals : Int
  High : ℚ
  Low : ℚ
  width : ℚ
  deriving DecidableEq, Repr

/-- `NewEqWidthBinner(numIntervals, high, low)`. -/
def NewEqWidthBinner (numIntervals : Int) (high low : ℚ) : EqWidthBinner :=
  { NumIntervals := numIntervals
    High := high
    Low := low
    width := (high - low) / (numIntervals : ℚ) }

/-- The loop of `EqWidthBinner.Bin`, `for i := 0; i <= e.NumIntervals; i++`,
entered at counter `i` with `todo` iterations left.  When no iteration is left
the loop falls through to the final `return 0, fmt.Errorf(...)`. -/
def EqWidthBinner.binLoop (e : EqWidthBinner) (v : ℚ) : Nat → Int → Except BinError Int
  | 0, _ => .error (.notInRange v e.Low e.High)
  | todo + 1, i =>
    if v < e.Low then
      .error (.notInRange v e.Low e.High)
    else if v < e.Low + ((i + 1 : Int) : ℚ) * e.width then
      .ok i
    else
      binLoop e v todo (i + 1)

/-- `EqWidthBinner.Bin(v)`: the counter runs over `0, ..., NumIntervals`, that
is `NumIntervals + 1` iterations (none when `NumIntervals` is negative). -/
def EqWidthBinner.Bin (e : EqWidthBinner) (v : ℚ) : Except BinError Int :=
  e.binLoop v (e.NumIntervals + 1).toNat 0

/-! ## The dense binner -/

/-- A `*tensor.Dense` of float32 values, as its flat backing. -/
abbrev Dense := List ℚ

/-- `t.GetF32(i)`: the value at flat position `i`.  Every call below is made
at a position handed out by an iterator over a tensor of the same length (or
at `0` of a non-empty tensor), so the default is never read. -/
def GetF32 (t : Dense) (i : Nat) : ℚ := t.getD i 0

/-- `a.Sub(b)`: element-wise difference; tensors of different shape give an
error. -/
def Sub (a b : Dense) : Except BinError Dense :=
  if a.length = b.length then .ok (List.zipWith (fun x y => x - y) a b)
  else .error (.shapeMismatch a.length b.length)

/-- `a.Div(b)`: element-wise quotient; tensors of different shape give an
error. -/
def Div (a b : Dense) : Except BinError Dense :=
  if a.length = b.length then .ok (List.zipWith (fun x y => x / y) a b)
  else .error (.shapeMismatch a.length b.length)

/-- The conversion `int(interval)` of a float: truncation toward zero. -/
def truncInt (q : ℚ) : Int := q.num.tdiv q.den

/-- The struct `DenseEqWidthBinner`. -/
structure DenseEqWidthBinner where
  Intervals : Dense
  Low : Dense
  High : Dense
  widths : Dense
  bounds : List Dense
  deriving DecidableEq, Repr

/-- The loop `for j := 0; j <= int(interval); j++` of `NewDenseEqWidthBinner`,
entered at counter `j` with `todo` iterations left: each iteration appends
`backing[j] + width`. -/
def boundsLoop (width : ℚ) : Nat → Nat → List ℚ → List ℚ
  | 0, _, backing => backing
  | todo + 1, j, backing => boundsLoop width todo (j + 1) (backing ++ [GetF32 backing j + width])

/-- The body of the loop over the positions of `widths` in
`NewDenseEqWidthBinner`: the boundary tensor of position `i`.  The backing
starts as `[l]` and the inner counter runs over `0, ..., int(interval)`. -/
def boundOf (intervals low widths : Dense) (i : Nat) : Dense :=
  let interval := GetF32 intervals i
  let l := GetF32 low i
  let width := GetF32 widths i
  boundsLoop width (truncInt interval + 1).toNat 0 [l]

/-- `NewDenseEqWidthBinner(intervals, low, high)`.  The conversion
`tens.ToFloat32` belongs to a package whose source is not at hand and is a
parameter; `T` is the type of the tensors before conversion. -/
def NewDenseEqWidthBinner {T : Type} (ToFloat32 : T → Except BinError Dense)
    (intervals low high : T) : Except BinError DenseEqWidthBinner := do
  let low ← ToFloat32 low
  let high ← ToFloat32 high
  let intervals ← ToFloat32 intervals
  let spread ← Sub high low
  let widths ← Div spread intervals
  let bounds := (List.range widths.length).map (boundOf intervals low widths)
  pure { Intervals := intervals, Low := low, High := high, widths := widths, bounds := bounds }

/-- `DenseEqWidthBinner.Widths()`. -/
def DenseEqWidthBinner.Widths (d : DenseEqWidthBinner) : Dense := d.widths

/-- `DenseEqWidthBinner.Bounds()`. -/
def DenseEqWidthBinner.Bounds (d : DenseEqWidthBinner) : List Dense := d.bounds

/-- How the scan of one boundary tensor ends. -/
inductive Scan where
  /-- `v < bounds.GetF32(0)`: the function returns an error. -/
  | below
  /-- `v < bounds.GetF32(j)`: `j` is appended and the scan breaks. -/
  | found (j : Nat)
  /-- The iterator is exhausted and nothing was appended. -/
  | exhausted
  deriving DecidableEq, Repr

/-- The inner loop of `DenseEqWidthBinner.Bin` over the positions `j` of one
boundary tensor, entered at position `j` with `todo` positions left. -/
def scanLoop (v : ℚ) (bounds : Dense) : Nat → Nat → Scan
  | 0, _ => .exhausted
  | todo + 1, j =>
    if v < GetF32 bounds 0 then .below
    else if v < GetF32 bounds j then .found j
    else scanLoop v bounds todo (j + 1)

/-- What a call of `DenseEqWidthBinner.Bin` does: it returns an index tensor
(as its backing), returns an error, or stops with the runtime panic of the
slice access `d.bounds[i]` (index out of range). -/
inductive BinOutcome where
  | ok (indices : List Int)
  | err (e : BinError)
  | panic
  deriving DecidableEq, Repr

/-- The outer loop of `DenseEqWidthBinner.Bin` over the positions `i` of
`values`, entered at position `i` with `todo` positions left and the indices
collected so far in `backing`. -/
def DenseEqWidthBinner.binLoop (d : DenseEqWidthBinner) (values : Dense) :
    Nat → Nat → List Int → BinOutcome
  | 0, _, backing => .ok backing
  | todo + 1, i, backing =>
    let v := GetF32 values i
    match d.bounds[i]? with
    | none => .panic
    | some bounds =>
      match scanLoop v bounds bounds.length 0 with
      | .below => .err (.couldNotBin v bounds)
      | .found j =>
        let backing := backing ++ [(j : Int)]
        if backing.length ≤ i then .err (.couldNotBin v bounds)
        else binLoop d values todo (i + 1) backing
      | .exhausted =>
        if backing.length ≤ i then .err (.couldNotBin v bounds)
        else binLoop d values todo (i + 1) backing

/-- `DenseEqWidthBinner.Bin(values)`. -/
def DenseEqWidthBinner.Bin (d : DenseEqWidthBinner) (values : Dense) : BinOutcome :=
  d.binLoop values values.length 0 []

/-- The boundary points `l, l + w, l + 2 w, ...`: the first `m` of them. -/
def ladder (l w : ℚ) (m : Nat) : List ℚ :=
  (List.range m).map (fun (k : Nat) => l + (k : ℚ) * w)

/-- The widths the constructor computes from converted inputs of one length:
`(high - low) / intervals`, element by element. -/
def widthsOf (intervals low high : Dense) : Dense :=
  List.zipWith (fun x y => x / y) (List.zipWith (fun x y => x - y) high low) intervals

/-- The binner that keeps only the first `m` boundary tensors. -/
def DenseEqWidthBinner.firstDims (d : DenseEqWidthBinner) (m : Nat) : DenseEqWidthBinner :=
  { d with bounds := d.bounds.take m }

/-- The binner of the two-dimensional scenario `intervals = [2, 2]`,
`low = [0, 0]`, `high = [10, 10]`, as the constructor returns it (see
`NewDenseEqWidthBinner_scenario`). -/
def scenarioBinner : DenseEqWidthBinner :=
  { Intervals := [2, 2], Low := [0, 0], High := [10, 10], widths := [5, 5],
    bounds := [[0, 5, 10, 15], [0, 5, 10, 15]] }

/-- The scan that `Bin` runs at position `k` of `values`: the value of that
position against the boundary tensor of that position (`none` when there is
no such boundary tensor). -/
def scanAt (d : DenseEqWidthBinner) (values : Dense) (k : Nat) : Option Scan :=
  (d.bounds[k]?).map (fun bounds => scanLoop (GetF32 values k) bounds bounds.length 0)

/-! ## Scalar binner: the loop -/

/-- A value below `Low` is rejected by the loop whatever the counter is. -/
theorem binLoop_below (e : EqWidthBinner) (v : ℚ) (hv : v < e.Low) (todo : Nat) (i : Int) :
    e.binLoop v todo i = .error (.notInRange v e.Low e.High) := by
  cases todo with
  | zero => rfl
  | succ t => simp [EqWidthBinner.binLoop, hv]

/-- When some counter value still to be visited satisfies the comparison, the
loop returns the first such counter value. -/
theorem binLoop_first (e : EqWidthBinner) (v : ℚ) (hlow : e.Low ≤ v) :
    ∀ (todo : Nat) (i : Int),
      (∃ k : Int, i ≤ k ∧ k < i + todo ∧ v < e.Low + ((k : ℚ) + 1) * e.width) →
      ∃ r : Int, e.binLoop v todo i = .ok r ∧ i ≤ r ∧ r < i + todo ∧
        v < e.Low + ((r : ℚ) + 1) * e.width ∧
        ∀ k : Int, i ≤ k → k < r → ¬ v < e.Low + ((k : ℚ) + 1) * e.width := by
  intro todo
  induction todo with
  | zero =>
    rintro i ⟨k, h1, h2, -⟩
    simp at h2
    omega
  | succ t ih =>
    rintro i ⟨k, h1, h2, h3⟩
    have hnl : ¬ v < e.Low := not_lt.mpr hlow
    by_cases hc : v < e.Low + ((i : ℚ) + 1) * e.width
    · refine ⟨i, ?_, le_refl _, ?_, hc, ?_⟩
      · simp [EqWidthBinner.binLoop, hnl, hc]
      · push_cast; omega
      · intro k hk1 hk2; omega
    · have hki : k ≠ i := by
        rintro rfl
        exact hc h3
      have hk : i + 1 ≤ k := by omega
      obtain ⟨r, hr, hr1, hr2, hr3, hr4⟩ := ih (i + 1) ⟨k, hk, by push_cast at h2 ⊢; omega, h3⟩
      refine ⟨r, ?_, by omega, by push_cast at hr2 ⊢; omega, hr3, ?_⟩
      · simp [EqWidthBinner.binLoop, hnl, hc, hr]
      · intro j hj1 hj2
        by_cases hji : j = i
        · subst hji; exact hc
        · exact hr4 j (by omega) hj2

/-- When no counter value still to be visited satisfies the comparison, the
loop falls through to the final error. -/
theorem binLoop_none (e : EqWidthBinner) (v : ℚ) :
    ∀ (todo : Nat) (i : Int),
      (∀ k : Int, i ≤ k → k < i + todo → ¬ v < e.Low + ((k : ℚ) + 1) * e.width) →
      e.binLoop v todo i = .error (.notInRange v e.Low e.High) := by
  intro todo
  induction todo with
  | zero => intro i _; rfl
  | succ t ih =>
    intro i h
    have hc : ¬ v < e.Low + ((i : ℚ) + 1) * e.width := h i (le_refl _) (by push_cast; omega)
    have hrec := ih (i + 1) (fun k hk1 hk2 => h k (by omega) (by push_cast at hk2 ⊢; omega))
    by_cases hl : v < e.Low
    · simp [EqWidthBinner.binLoop, hl]
    · simp [EqWidthBinner.binLoop, hl, hc, hrec]

/-- The width of a binner with a positive interval count spans `[low, high]`
in `numIntervals` steps. -/
theorem NewEqWidthBinner_width_mul (n : Int) (high low : ℚ) (hn : 0 < n) :
    (n : ℚ) * (NewEqWidthBinner n high low).width = high - low := by
  have h : (n : ℚ) ≠ 0 := by
    have : (0 : ℚ) < n := by exact_mod_cast hn
    exact ne_of_gt this
  simp only [NewEqWidthBinner]
  field_simp

/-- The width of a binner with a positive interval count and `low < high` is
positive. -/
theorem NewEqWidthBinner_width_pos (n : Int) (high low : ℚ) (hn : 0 < n) (hlh : low < high) :
    0 < (NewEqWidthBinner n high low).width := by
  have h : (0 : ℚ) < n := by exact_mod_cast hn
  simp only [NewEqWidthBinner]
  exact div_pos (sub_pos.mpr hlh) h

/-- `Bin` on a binner with non-negative interval count: a value in `[Low, Low + (NumIntervals + 1) * width)` gets the least counter
value whose upper edge exceeds it. -/
theorem Bin_least (e : EqWidthBinner) (v : ℚ) (hn : 0 ≤ e.NumIntervals)
    (hlow : e.Low ≤ v) (hhigh : v < e.Low + ((e.NumIntervals : ℚ) + 1) * e.width) :
    ∃ r : Int, e.Bin v = .ok r ∧ 0 ≤ r ∧ r ≤ e.NumIntervals ∧
      e.Low + (r : ℚ) * e.width ≤ v ∧ v < e.Low + ((r : ℚ) + 1) * e.width := by
  have hcast : (((e.NumIntervals + 1).toNat : Nat) : Int) = e.NumIntervals + 1 :=
    Int.toNat_of_nonneg (by omega)
  obtain ⟨r, hr, hr1, hr2, hr3, hr4⟩ :=
    binLoop_first e v hlow (e.NumIntervals + 1).toNat 0
      ⟨e.NumIntervals, hn, by rw [hcast]; omega, hhigh⟩
  refine ⟨r, hr, hr1, by rw [hcast] at hr2; omega, ?_, hr3⟩
  by_cases h0 : r = 0
  · subst h0; simpa using hlow
  · have := hr4 (r - 1) (by omega) (by omega)
    push_cast at this
    simpa using not_lt.mp this

/-- With a positive width, at most one counter value brackets a value. -/
theorem bracket_unique (low w v : ℚ) (hw : 0 < w) (i k : Int)
    (hi1 : low + (i : ℚ) * w ≤ v) (hi2 : v < low + ((i : ℚ) + 1) * w)
    (hk1 : low + (k : ℚ) * w ≤ v) (hk2 : v < low + ((k : ℚ) + 1) * w) : k = i := by
  have h1 : (k : ℚ) * w < ((i : ℚ) + 1) * w := by linarith
  have h2 : (i : ℚ) * w < ((k : ℚ) + 1) * w := by linarith
  have h3 : (k : ℚ) < (i : ℚ) + 1 := lt_of_mul_lt_mul_right h1 hw.le
  have h4 : (i : ℚ) < (k : ℚ) + 1 := lt_of_mul_lt_mul_right h2 hw.le
  have h5 : k < i + 1 := by exact_mod_cast h3
  have h6 : i < k + 1 := by exact_mod_cast h4
  omega

/-- A binner built with `numIntervals > 0` and `high > low` classifies every
value of `[low, high)`: the index is in `[0, numIntervals - 1]` and its
interval contains the value. -/
theorem Bin_in_range (n : Int) (low high v : ℚ) (hn : 0 < n) (hlh : low < high)
    (hv1 : low ≤ v) (hv2 : v < high) :
    ∃ i : Int, (NewEqWidthBinner n high low).Bin v = .ok i ∧ 0 ≤ i ∧ i ≤ n - 1 ∧
      low + (i : ℚ) * (NewEqWidthBinner n high low).width ≤ v ∧
      v < low + ((i : ℚ) + 1) * (NewEqWidthBinner n high low).width := by
  have hw := NewEqWidthBinner_width_pos n high low hn hlh
  have hmul := NewEqWidthBinner_width_mul n high low hn
  have hhigh : v < (NewEqWidthBinner n high low).Low +
      (((NewEqWidthBinner n high low).NumIntervals : ℚ) + 1) *
        (NewEqWidthBinner n high low).width := by
    have : (NewEqWidthBinner n high low).Low = low := rfl
    have hN : (NewEqWidthBinner n high low).NumIntervals = n := rfl
    rw [this, hN]
    nlinarith
  obtain ⟨r, hr, hr0, -, hr1, hr2⟩ :=
    Bin_least (NewEqWidthBinner n high low) v (le_of_lt hn) hv1 hhigh
  have hr1 : low + (r : ℚ) * (NewEqWidthBinner n high low).width ≤ v := hr1
  have hr2 : v < low + ((r : ℚ) + 1) * (NewEqWidthBinner n high low).width := hr2
  refine ⟨r, hr, hr0, ?_, hr1, hr2⟩
  by_contra hcon
  have hge : n ≤ r := by omega
  have hq : (n : ℚ) ≤ (r : ℚ) := by exact_mod_cast hge
  have : (n : ℚ) * (NewEqWidthBinner n high low).width ≤
      (r : ℚ) * (NewEqWidthBinner n high low).width :=
    mul_le_mul_of_nonneg_right hq hw.le
  linarith

/-! ## Scalar binner: the claims -/

/-- C1: a binner built by `NewEqWidthBinner` with `numIntervals > 0` and
`high > low` classifies every value of `[low, high)` without error, and the
index it returns is the one index `i` of `[0, numIntervals - 1]` with
`low + i * width <= value < low + (i + 1) * width`. -/
theorem C1_Bin_in_range (n : Int) (low high v : ℚ) (hn : 0 < n) (hlh : low < high)
    (hv1 : low ≤ v) (hv2 : v < high) :
    ∃ i : Int, (NewEqWidthBinner n high low).Bin v = .ok i ∧ 0 ≤ i ∧ i ≤ n - 1 ∧
      low + (i : ℚ) * (NewEqWidthBinner n high low).width ≤ v ∧
      v < low + ((i : ℚ) + 1) * (NewEqWidthBinner n high low).width ∧
      ∀ k : Int, 0 ≤ k → k ≤ n - 1 →
        low + (k : ℚ) * (NewEqWidthBinner n high low).width ≤ v →
        v < low + ((k : ℚ) + 1) * (NewEqWidthBinner n high low).width → k = i := by
  obtain ⟨r, hr, hr0, hrn, hr1, hr2⟩ := Bin_in_range n low high v hn hlh hv1 hv2
  refine ⟨r, hr, hr0, hrn, hr1, hr2, ?_⟩
  intro k _ _ hk1 hk2
  exact bracket_unique low _ v (NewEqWidthBinner_width_pos n high low hn hlh) r k hr1 hr2 hk1 hk2

/-- The instance of C1 at `numIntervals = 4`, `low = 0`, `high = 8` and the
value `1.9`. -/
theorem C1_Bin_in_range_witness :
    ∃ i : Int, (NewEqWidthBinner 4 8 0).Bin (19 / 10) = .ok i ∧ 0 ≤ i ∧ i ≤ 4 - 1 ∧
      0 + (i : ℚ) * (NewEqWidthBinner 4 8 0).width ≤ 19 / 10 ∧
      19 / 10 < 0 + ((i : ℚ) + 1) * (NewEqWidthBinner 4 8 0).width ∧
      ∀ k : Int, 0 ≤ k → k ≤ 4 - 1 →
        0 + (k : ℚ) * (NewEqWidthBinner 4 8 0).width ≤ 19 / 10 →
        19 / 10 < 0 + ((k : ℚ) + 1) * (NewEqWidthBinner 4 8 0).width → k = i :=
  C1_Bin_in_range 4 0 8 (19 / 10) (by norm_num) (by norm_num) (by norm_num) (by norm_num)

/-- The scalar scenario `numIntervals = 4`, `low = 0`, `high = 8` on values
inside the range: `Bin(0) = 0`, `Bin(1.9) = 0`, `Bin(2) = 1`, `Bin(7.9) = 3`. -/
theorem Bin_scenario_in_range :
    (NewEqWidthBinner 4 8 0).Bin 0 = .ok 0 ∧
    (NewEqWidthBinner 4 8 0).Bin (19 / 10) = .ok 0 ∧
    (NewEqWidthBinner 4 8 0).Bin 2 = .ok 1 ∧
    (NewEqWidthBinner 4 8 0).Bin (79 / 10) = .ok 3 := by
  refine ⟨?_, ?_, ?_, ?_⟩ <;>
    norm_num [EqWidthBinner.Bin, EqWidthBinner.binLoop, NewEqWidthBinner]

/-- C2, evaluated on the code: with `numIntervals = 4`, `low = 0`, `high = 8`
the values `8` (equal to `High`) and `9` (above `High`) are not rejected,
`Bin` returns the index `4` for both; the first rejected values start at
`high + width = 10`. -/
theorem C2_Bin_at_high_accepted :
    (NewEqWidthBinner 4 8 0).Bin 8 = .ok 4 ∧
    (NewEqWidthBinner 4 8 0).Bin 9 = .ok 4 ∧
    (NewEqWidthBinner 4 8 0).Bin 10 = .error (.notInRange 10 0 8) := by
  refine ⟨?_, ?_, ?_⟩ <;>
    norm_num [EqWidthBinner.Bin, EqWidthBinner.binLoop, NewEqWidthBinner]

/-- C3, evaluated on the code: with `numIntervals = 4`, `low = 0`, `high = 8`
the call `Bin(8)` returns without error an index that is not in
`[0, numIntervals - 1] = [0, 3]`. -/
theorem C3_Bin_index_out_of_range :
    ∃ i : Int, (NewEqWidthBinner 4 8 0).Bin 8 = .ok i ∧ ¬ (0 ≤ i ∧ i ≤ 4 - 1) := by
  refine ⟨4, ?_, by omega⟩
  norm_num [EqWidthBinner.Bin, EqWidthBinner.binLoop, NewEqWidthBinner]

/-- C4: whatever the interval count, bounds and width of a scalar binner, a
value below `Low` makes `Bin` return the out-of-range error (carrying the
value and the configured bounds) and no index. -/
theorem C4_Bin_below_low (e : EqWidthBinner) (v : ℚ) (hv : v < e.Low) :
    e.Bin v = .error (.notInRange v e.Low e.High) :=
  binLoop_below e v hv _ 0

/-- The instance of C4 at `numIntervals = 4`, `low = 0`, `high = 8` and the
value `-1`. -/
theorem C4_Bin_below_low_witness :
    (NewEqWidthBinner 4 8 0).Bin (-1) = .error (.notInRange (-1) 0 8) :=
  C4_Bin_below_low (NewEqWidthBinner 4 8 0) (-1) (by norm_num [NewEqWidthBinner])

/-- C10: on a binner built by `NewEqWidthBinner` with `numIntervals > 0` and
`high > low`, two values `v1 <= v2` of `[low, high)` are both classified
without error and the index of `v1` is at most the index of `v2`. -/
theorem C10_Bin_monotone (n : Int) (low high v1 v2 : ℚ) (hn : 0 < n) (hlh : low < high)
    (h1 : low ≤ v1) (h12 : v1 ≤ v2) (h2 : v2 < high) :
    ∃ i1 i2 : Int, (NewEqWidthBinner n high low).Bin v1 = .ok i1 ∧
      (NewEqWidthBinner n high low).Bin v2 = .ok i2 ∧ i1 ≤ i2 := by
  have hw := NewEqWidthBinner_width_pos n high low hn hlh
  obtain ⟨i1, hb1, -, -, ha, -⟩ :=
    Bin_in_range n low high v1 hn hlh h1 (lt_of_le_of_lt h12 h2)
  obtain ⟨i2, hb2, -, -, -, hb⟩ :=
    Bin_in_range n low high v2 hn hlh (le_trans h1 h12) h2
  refine ⟨i1, i2, hb1, hb2, ?_⟩
  have h3 : (i1 : ℚ) * (NewEqWidthBinner n high low).width <
      ((i2 : ℚ) + 1) * (NewEqWidthBinner n high low).width := by linarith
  have h4 : (i1 : ℚ) < (i2 : ℚ) + 1 := lt_of_mul_lt_mul_right h3 hw.le
  have h5 : i1 < i2 + 1 := by exact_mod_cast h4
  omega

/-- The instance of C10 at `numIntervals = 4`, `low = 0`, `high = 8` and the
values `1.9 <= 7.9`. -/
theorem C10_Bin_monotone_witness :
    ∃ i1 i2 : Int, (NewEqWidthBinner 4 8 0).Bin (19 / 10) = .ok i1 ∧
      (NewEqWidthBinner 4 8 0).Bin (79 / 10) = .ok i2 ∧ i1 ≤ i2 :=
  C10_Bin_monotone 4 0 8 (19 / 10) (79 / 10) (by norm_num) (by norm_num) (by norm_num)
    (by norm_num) (by norm_num)

/-! ## Dense binner: construction -/

/-- The conversion `int(interval)` of a whole non-negative float is that
number. -/
theorem truncInt_natCast (n : Nat) : truncInt (n : ℚ) = (n : Int) := by
  simp [truncInt]

/-- Reading a position of a tensor that exists. -/
theorem GetF32_of_getElem? (t : Dense) (i : Nat) (x : ℚ) (h : t[i]? = some x) :
    GetF32 t i = x := by
  simp [GetF32, List.getD, h]

theorem ladder_length (l w : ℚ) (m : Nat) : (ladder l w m).length = m := by
  simp [ladder]

theorem ladder_getElem? (l w : ℚ) (m k : Nat) (hk : k < m) :
    (ladder l w m)[k]? = some (l + (k : ℚ) * w) := by
  simp [ladder, hk]

theorem ladder_pairwise (l w : ℚ) (hw : 0 < w) (m : Nat) :
    (ladder l w m).Pairwise (fun x y => x < y) := by
  simp only [ladder]
  rw [List.pairwise_map]
  refine (List.pairwise_lt_range m).imp ?_
  intro a b hab
  have : (a : ℚ) < (b : ℚ) := by exact_mod_cast hab
  have := mul_lt_mul_of_pos_right this hw
  linarith

/-- The inner construction loop extends the ladder by one point per
iteration. -/
theorem boundsLoop_ladder (l w : ℚ) :
    ∀ (todo j : Nat), boundsLoop w todo j (ladder l w (j + 1)) = ladder l w (j + 1 + todo) := by
  intro todo
  induction todo with
  | zero => intro j; rfl
  | succ t ih =>
    intro j
    have hget : GetF32 (ladder l w (j + 1)) j = l + (j : ℚ) * w :=
      GetF32_of_getElem? _ _ _ (ladder_getElem? l w (j + 1) j (by omega))
    have hstep : ladder l w (j + 1) ++ [GetF32 (ladder l w (j + 1)) j + w] =
        ladder l w (j + 1 + 1) := by
      rw [hget]
      simp only [ladder]
      rw [List.range_succ (j + 1), List.map_append]
      simp
      ring
    simp only [boundsLoop]
    rw [hstep, ih (j + 1)]
    congr 1
    omega

/-- The boundary tensor of a position with a whole interval count `n`: the
`n + 2` points `l, l + w, ..., l + (n + 1) w`. -/
theorem boundOf_ladder (intervals low widths : Dense) (d n : Nat) (l w : ℚ)
    (hi : intervals[d]? = some (n : ℚ)) (hl : low[d]? = some l) (hw : widths[d]? = some w) :
    boundOf intervals low widths d = ladder l w (n + 2) := by
  have h1 : [l] = ladder l w (0 + 1) := by simp [ladder, List.range_succ]
  have h2 : ((n : Int) + 1).toNat = n + 1 := by omega
  simp only [boundOf]
  rw [GetF32_of_getElem? _ _ _ hi, GetF32_of_getElem? _ _ _ hl, GetF32_of_getElem? _ _ _ hw,
    truncInt_natCast, h2, h1, boundsLoop_ladder]
  congr 1
  omega

/-- The constructor succeeds when the three conversions succeed and give
tensors of one length, and this is the binner it returns. -/
theorem NewDenseEqWidthBinner_ok {T : Type} (ToFloat32 : T → Except BinError Dense)
    (ivR lowR highR : T) (iv low high : Dense)
    (hl : ToFloat32 lowR = .ok low) (hh : ToFloat32 highR = .ok high)
    (hi : ToFloat32 ivR = .ok iv)
    (hlen1 : low.length = iv.length) (hlen2 : high.length = iv.length) :
    NewDenseEqWidthBinner ToFloat32 ivR lowR highR =
      .ok { Intervals := iv, Low := low, High := high, widths := widthsOf iv low high,
            bounds := (List.range iv.length).map (boundOf iv low (widthsOf iv low high)) } := by
  have h3 : (widthsOf iv low high).length = iv.length := by
    simp [widthsOf, hlen1, hlen2]
  simp only [NewDenseEqWidthBinner, hl, hh, hi, Sub, Div, bind, Except.bind, pure, Except.pure]
  simp [hlen1, hlen2]
  refine ⟨rfl, ?_⟩
  rw [← h3]
  intro a _
  rfl

theorem widthsOf_getElem? (iv low high : Dense) (d : Nat) (x l h : ℚ)
    (hi : iv[d]? = some x) (hl : low[d]? = some l) (hh : high[d]? = some h) :
    (widthsOf iv low high)[d]? = some ((h - l) / x) := by
  simp [widthsOf, List.getElem?_zipWith, hi, hl, hh]

/-! ## Dense binner: classification -/

/-- A position beyond the boundary tensors is never passed: with more values
than boundary tensors the outer loop does not return indices. -/
theorem binLoop_long (d : DenseEqWidthBinner) (values : Dense) :
    ∀ (todo i : Nat) (backing : List Int), 0 < todo → d.bounds.length < i + todo →
      ∀ r, d.binLoop values todo i backing ≠ .ok r := by
  intro todo
  induction todo with
  | zero => intro i backing h; omega
  | succ t ih =>
    intro i backing _ hlen r
    cases hb : d.bounds[i]? with
    | none => simp [DenseEqWidthBinner.binLoop, hb]
    | some bounds =>
      have hi : i < d.bounds.length := by
        rcases List.getElem?_eq_some_iff.mp hb with ⟨h, -⟩
        exact h
      have ht : 0 < t := by omega
      have hlen2 : d.bounds.length < i + 1 + t := by omega
      simp only [DenseEqWidthBinner.binLoop, hb]
      cases hs : scanLoop (GetF32 values i) bounds bounds.length 0 with
      | below => simp
      | found j =>
        simp only
        split
        · simp
        · exact ih (i + 1) _ ht hlen2 r
      | exhausted =>
        simp only
        split
        · simp
        · exact ih (i + 1) _ ht hlen2 r

/-- The outer loop reads only the boundary tensors of the positions it
visits. -/
theorem binLoop_firstDims (d : DenseEqWidthBinner) (values : Dense) (m : Nat) :
    ∀ (todo i : Nat) (backing : List Int), i + todo ≤ m →
      (d.firstDims m).binLoop values todo i backing = d.binLoop values todo i backing := by
  intro todo
  induction todo with
  | zero => intro i backing _; rfl
  | succ t ih =>
    intro i backing hm
    have hi : i < m := by omega
    have hb : (d.firstDims m).bounds[i]? = d.bounds[i]? := by
      simp [DenseEqWidthBinner.firstDims, List.getElem?_take, hi]
    simp only [DenseEqWidthBinner.binLoop, hb]
    cases d.bounds[i]? with
    | none => rfl
    | some bounds =>
      simp only
      cases scanLoop (GetF32 values i) bounds bounds.length 0 with
      | below => rfl
      | found j => simp only [ih (i + 1) _ (by omega)]
      | exhausted => simp only [ih (i + 1) _ (by omega)]

/-- Every error the outer loop returns is the out-of-range error of a visited
position, carrying its value and its boundary tensor. -/
theorem binLoop_err (d : DenseEqWidthBinner) (values : Dense) :
    ∀ (todo i : Nat) (backing : List Int) (e : BinError),
      d.binLoop values todo i backing = .err e →
      ∃ (k : Nat) (bounds : Dense), i ≤ k ∧ k < i + todo ∧ d.bounds[k]? = some bounds ∧
        e = .couldNotBin (GetF32 values k) bounds := by
  intro todo
  induction todo with
  | zero => intro i backing e h; simp [DenseEqWidthBinner.binLoop] at h
  | succ t ih =>
    intro i backing e h
    cases hb : d.bounds[i]? with
    | none => simp [DenseEqWidthBinner.binLoop, hb] at h
    | some bounds =>
      have here : ∀ e, BinOutcome.err (BinError.couldNotBin (GetF32 values i) bounds) = .err e →
          ∃ (k : Nat) (bounds : Dense), i ≤ k ∧ k < i + (t + 1) ∧ d.bounds[k]? = some bounds ∧
            e = .couldNotBin (GetF32 values k) bounds := by
        intro e he
        injection he with he
        exact ⟨i, bounds, le_refl _, by omega, hb, he.symm⟩
      have later : ∀ backing, d.binLoop values t (i + 1) backing = .err e →
          ∃ (k : Nat) (bounds : Dense), i ≤ k ∧ k < i + (t + 1) ∧ d.bounds[k]? = some bounds ∧
            e = .couldNotBin (GetF32 values k) bounds := by
        intro backing hrec
        obtain ⟨k, bs, h1, h2, h3, h4⟩ := ih (i + 1) backing e hrec
        exact ⟨k, bs, by omega, by omega, h3, h4⟩
      simp only [DenseEqWidthBinner.binLoop, hb] at h
      cases hs : scanLoop (GetF32 values i) bounds bounds.length 0 with
      | below =>
        rw [hs] at h
        exact here e h
      | found j =>
        rw [hs] at h
        simp only at h
        split at h
        · exact here e h
        · exact later _ h
      | exhausted =>
        rw [hs] at h
        simp only at h
        split at h
        · exact here e h
        · exact later _ h

/-- The constructor on the two-dimensional scenario, with inputs that are
float tensors already. -/
theorem NewDenseEqWidthBinner_scenario :
    NewDenseEqWidthBinner (T := Dense) Except.ok [2, 2] [0, 0] [10, 10] = .ok scenarioBinner := by
  simp [NewDenseEqWidthBinner, Sub, Div, boundOf, boundsLoop, truncInt, GetF32, bind,
    Except.bind, pure, Except.pure, List.range, List.range.loop, scenarioBinner]
  norm_num

/-! ## Dense binner: the claims -/

/-- C5, evaluated on the code: on the binner built from `intervals = [2, 2]`,
`low = [0, 0]`, `high = [10, 10]` the call `Bin([3, 7])` returns `[1, 2]`, one
more in each dimension than the index `j` with
`boundaries[d][j] <= values[d] < boundaries[d][j+1]`, which is `[0, 1]`. -/
theorem C5_dense_Bin_one_based :
    NewDenseEqWidthBinner (T := Dense) Except.ok [2, 2] [0, 0] [10, 10] = .ok scenarioBinner ∧
    scenarioBinner.Bin [3, 7] = .ok [1, 2] ∧
    scenarioBinner.Bin [3, 7] ≠ .ok [0, 1] :=
  ⟨NewDenseEqWidthBinner_scenario, by decide, by decide⟩

/-- C6, evaluated on the code: on the binner built from `intervals = [2, 2]`,
`low = [0, 0]`, `high = [10, 10]` each boundary tensor of `Bounds()` is
`[0, 5, 10, 15]`: four points, not `intervals[d] + 1 = 3`. -/
theorem C6_bounds_one_point_more :
    NewDenseEqWidthBinner (T := Dense) Except.ok [2, 2] [0, 0] [10, 10] = .ok scenarioBinner ∧
    scenarioBinner.Bounds = [[0, 5, 10, 15], [0, 5, 10, 15]] ∧
    scenarioBinner.Bounds.map List.length = [4, 4] :=
  ⟨NewDenseEqWidthBinner_scenario, rfl, rfl⟩

/-- C7: when the three conversions succeed with tensors of one length, the
constructor returns a binner with one boundary tensor per dimension, and for
every dimension `d` with a whole interval count `n > 0` and `low[d] < high[d]`
the boundary tensor of `d` is strictly increasing, starts at `low[d]`, holds
`low[d] + k * width[d]` at every stored position `k`, and holds `high[d]` at
position `n`. -/
theorem C7_bounds_ladder {T : Type} (ToFloat32 : T → Except BinError Dense)
    (ivR lowR highR : T) (iv low high : Dense)
    (hl : ToFloat32 lowR = .ok low) (hh : ToFloat32 highR = .ok high)
    (hi : ToFloat32 ivR = .ok iv)
    (hlen1 : low.length = iv.length) (hlen2 : high.length = iv.length) :
    ∃ b : DenseEqWidthBinner, NewDenseEqWidthBinner ToFloat32 ivR lowR highR = .ok b ∧
      b.Bounds.length = iv.length ∧
      ∀ (d n : Nat) (l h : ℚ), iv[d]? = some (n : ℚ) → low[d]? = some l → high[d]? = some h →
        0 < n → l < h →
        ∃ (w : ℚ) (bs : Dense), b.Widths[d]? = some w ∧ b.Bounds[d]? = some bs ∧
          bs.Pairwise (fun x y => x < y) ∧ bs[0]? = some l ∧
          (∀ k : Nat, k < bs.length → bs[k]? = some (l + (k : ℚ) * w)) ∧
          bs[n]? = some h := by
  refine ⟨_, NewDenseEqWidthBinner_ok ToFloat32 ivR lowR highR iv low high hl hh hi hlen1 hlen2,
    by simp [DenseEqWidthBinner.Bounds], ?_⟩
  intro d n l h hid hld hhd hn hlh
  have hnq : (0 : ℚ) < (n : ℚ) := by exact_mod_cast hn
  have hw : (widthsOf iv low high)[d]? = some ((h - l) / (n : ℚ)) :=
    widthsOf_getElem? iv low high d _ l h hid hld hhd
  have hwpos : 0 < (h - l) / (n : ℚ) := div_pos (sub_pos.mpr hlh) hnq
  have hd : d < iv.length := by
    rcases List.getElem?_eq_some_iff.mp hid with ⟨hd, -⟩
    exact hd
  refine ⟨(h - l) / (n : ℚ), ladder l ((h - l) / (n : ℚ)) (n + 2), hw, ?_,
    ladder_pairwise _ _ hwpos _, ?_, ?_, ?_⟩
  · simp only [DenseEqWidthBinner.Bounds]
    rw [List.getElem?_map, List.getElem?_range hd]
    simp only [Option.map_some']
    rw [boundOf_ladder iv low _ d n l _ hid hld hw]
  · rw [ladder_getElem? _ _ _ 0 (by omega)]
    simp
  · intro k hk
    rw [ladder_length] at hk
    exact ladder_getElem? _ _ _ k hk
  · rw [ladder_getElem? _ _ _ n (by omega)]
    congr 1
    field_simp

/-- The instance of C7 at `intervals = [2, 2]`, `low = [0, 0]`,
`high = [10, 10]` (float tensors already), read at dimension `0`. -/
theorem C7_bounds_ladder_witness :
    ∃ b : DenseEqWidthBinner,
      NewDenseEqWidthBinner (T := Dense) Except.ok [2, 2] [0, 0] [10, 10] = .ok b ∧
      ∃ (w : ℚ) (bs : Dense), b.Widths[0]? = some w ∧ b.Bounds[0]? = some bs ∧
        bs.Pairwise (fun x y => x < y) ∧ bs[0]? = some 0 ∧
        (∀ k : Nat, k < bs.length → bs[k]? = some (0 + (k : ℚ) * w)) ∧
        bs[2]? = some 10 :=
  let ⟨b, hb, _, hall⟩ :=
    C7_bounds_ladder (T := Dense) Except.ok [2, 2] [0, 0] [10, 10] [2, 2] [0, 0] [10, 10]
      rfl rfl rfl rfl rfl
  ⟨b, hb, hall 0 2 0 10 (by simp) (by simp) (by simp) (by norm_num) (by norm_num)⟩

/-- C8, evaluated on the code: on the binner built from `intervals = [2, 2]`,
`low = [0, 0]`, `high = [10, 10]` the call `Bin([10, 1])`, whose first value
equals `high[0]`, returns the indices `[3, 1]` and no error. -/
theorem C8_dense_Bin_at_high_accepted :
    NewDenseEqWidthBinner (T := Dense) Except.ok [2, 2] [0, 0] [10, 10] = .ok scenarioBinner ∧
    scenarioBinner.Bin [10, 1] = .ok [3, 1] :=
  ⟨NewDenseEqWidthBinner_scenario, by decide⟩

/-- C9 as stated fails: the binner built from `intervals = [2, 2]`,
`low = [0, 0]`, `high = [10, 10]` has two boundary tensors; on the one-element
sequence `[3]` `Bin` returns the indices `[1]`, and on the three-element
sequence `[3, 7, 1]` it returns no error but stops with the index panic. -/
theorem C9_dimension_mismatch_counterexample :
    NewDenseEqWidthBinner (T := Dense) Except.ok [2, 2] [0, 0] [10, 10] = .ok scenarioBinner ∧
    scenarioBinner.bounds.length = 2 ∧
    scenarioBinner.Bin [3] = .ok [1] ∧
    scenarioBinner.Bin [3, 7, 1] = .panic :=
  ⟨NewDenseEqWidthBinner_scenario, rfl, by decide, by decide⟩

/-- C9, amended: `Bin` makes no dimension check.  Every error it returns is
the out-of-range error of one of the given values against the boundary tensor
of its position; on a sequence shorter than the number of boundary tensors it
behaves as the binner that has just the first `len(values)` boundary tensors;
on a longer sequence it never returns indices. -/
theorem C9_Bin_no_dimension_check (d : DenseEqWidthBinner) (values : Dense) :
    (∀ e, d.Bin values = .err e →
      ∃ (k : Nat) (bounds : Dense), k < values.length ∧ d.bounds[k]? = some bounds ∧
        e = .couldNotBin (GetF32 values k) bounds) ∧
    (values.length < d.bounds.length →
      (d.firstDims values.length).bounds.length = values.length ∧
      d.Bin values = (d.firstDims values.length).Bin values) ∧
    (d.bounds.length < values.length → ∀ r, d.Bin values ≠ .ok r) := by
  refine ⟨?_, ?_, ?_⟩
  · intro e he
    obtain ⟨k, bs, -, h2, h3, h4⟩ := binLoop_err d values values.length 0 [] e he
    exact ⟨k, bs, by omega, h3, h4⟩
  · intro hlt
    refine ⟨?_, ?_⟩
    · simp only [DenseEqWidthBinner.firstDims, List.length_take]
      omega
    · exact (binLoop_firstDims d values values.length values.length 0 [] (by omega)).symm
  · intro hlt r
    exact binLoop_long d values values.length 0 [] (by omega) (by omega) r

/-- The instance of C9 (amended) on the two-dimensional scenario: the
one-element sequence `[3]` is classified as by the binner of the first
dimension alone, and the three-element sequence `[3, 7, 1]` gives no
indices. -/
theorem C9_Bin_no_dimension_check_witness :
    scenarioBinner.Bin [3] = (scenarioBinner.firstDims 1).Bin [3] ∧
    ∀ r, scenarioBinner.Bin [3, 7, 1] ≠ .ok r :=
  ⟨((C9_Bin_no_dimension_check scenarioBinner [3]).2.1 (by decide)).2,
   (C9_Bin_no_dimension_check scenarioBinner [3, 7, 1]).2.2 (by decide)⟩

/-! ## Dense binner: the scan and the run of the outer loop -/

/-- A scan that ends with a found position: the value is not below the first
boundary, the position is one of those visited, the value is below its
boundary and below none of the boundaries visited before. -/
theorem scanLoop_found (v : ℚ) (bounds : Dense) :
    ∀ (todo j r : Nat), scanLoop v bounds todo j = .found r →
      j ≤ r ∧ r < j + todo ∧ ¬ v < GetF32 bounds 0 ∧ v < GetF32 bounds r ∧
      ∀ k, j ≤ k → k < r → ¬ v < GetF32 bounds k := by
  intro todo
  induction todo with
  | zero => intro j r h; simp [scanLoop] at h
  | succ t ih =>
    intro j r h
    simp only [scanLoop] at h
    split at h
    · simp at h
    · rename_i h0
      split at h
      · rename_i hj
        injection h with h
        subst h
        exact ⟨le_refl _, by omega, h0, hj, fun k h1 h2 => by omega⟩
      · rename_i hj
        obtain ⟨h1, h2, h3, h4, h5⟩ := ih (j + 1) r h
        refine ⟨by omega, by omega, h3, h4, ?_⟩
        intro k hk1 hk2
        by_cases hkj : k = j
        · subst hkj; exact hj
        · exact h5 k (by omega) hk2

/-- A value below the first boundary ends every non-empty scan with
`below`. -/
theorem scanLoop_of_below (v : ℚ) (bounds : Dense) (todo j : Nat) (ht : 0 < todo)
    (hv : v < GetF32 bounds 0) : scanLoop v bounds todo j = .below := by
  cases todo with
  | zero => omega
  | succ t => simp [scanLoop, hv]

/-- One iteration of the outer loop at a position whose scan finds `j`, when
as many indices were collected as positions were passed. -/
theorem binLoop_step_found (d : DenseEqWidthBinner) (values : Dense) (todo i j : Nat)
    (backing : List Int) (hlen : backing.length = i)
    (hs : scanAt d values i = some (.found j)) :
    d.binLoop values (todo + 1) i backing =
      d.binLoop values todo (i + 1) (backing ++ [(j : Int)]) := by
  simp only [scanAt] at hs
  cases hb : d.bounds[i]? with
  | none => simp [hb] at hs
  | some bounds =>
    simp only [hb, Option.map_some', Option.some.injEq] at hs
    simp only [DenseEqWidthBinner.binLoop, hb, hs]
    have : ¬ (backing ++ [(j : Int)]).length ≤ i := by simp [hlen]
    simp only [this, if_false]

/-- One iteration of the outer loop at a position whose scan finds nothing,
when as many indices were collected as positions were passed: the error of
that position. -/
theorem binLoop_step_fail (d : DenseEqWidthBinner) (values : Dense) (todo i : Nat)
    (backing : List Int) (bounds : Dense) (hlen : backing.length = i)
    (hb : d.bounds[i]? = some bounds)
    (hs : ∀ j, scanAt d values i ≠ some (.found j)) :
    d.binLoop values (todo + 1) i backing =
      .err (.couldNotBin (GetF32 values i) bounds) := by
  simp only [scanAt, hb, Option.map_some'] at hs
  simp only [DenseEqWidthBinner.binLoop, hb]
  cases hsc : scanLoop (GetF32 values i) bounds bounds.length 0 with
  | below => rfl
  | found j => exact absurd (by rw [hsc]) (hs j)
  | exhausted => simp [hlen]

/-- The run of the outer loop over positions that all have a boundary tensor,
entered with as many collected indices as positions passed.  Either every
remaining position is found and the loop returns the collected indices
extended by one index per position, in order; or the loop returns the error
of the first position whose scan finds nothing. -/
theorem binLoop_run (d : DenseEqWidthBinner) (values : Dense) :
    ∀ (todo i : Nat) (backing : List Int), backing.length = i →
      i + todo ≤ d.bounds.length →
      (∃ r : List Int, d.binLoop values todo i backing = .ok r ∧ r.length = i + todo ∧
          (∀ k, k < i → r[k]? = backing[k]?) ∧
          ∀ k, i ≤ k → k < i + todo →
            ∃ j : Nat, scanAt d values k = some (.found j) ∧ r[k]? = some (j : Int)) ∨
      (∃ (k : Nat) (bounds : Dense), i ≤ k ∧ k < i + todo ∧ d.bounds[k]? = some bounds ∧
          (∀ j, scanAt d values k ≠ some (.found j)) ∧
          (∀ k2, i ≤ k2 → k2 < k → ∃ j : Nat, scanAt d values k2 = some (.found j)) ∧
          d.binLoop values todo i backing = .err (.couldNotBin (GetF32 values k) bounds)) := by
  intro todo
  induction todo with
  | zero =>
    intro i backing hlen _
    left
    exact ⟨backing, rfl, by simpa using hlen, fun k _ => rfl, fun k h1 h2 => by omega⟩
  | succ t ih =>
    intro i backing hlen hle
    have hi : i < d.bounds.length := by omega
    have hb : d.bounds[i]? = some (d.bounds[i]) := List.getElem?_eq_getElem hi
    by_cases hf : ∃ j, scanAt d values i = some (.found j)
    · obtain ⟨j, hj⟩ := hf
      rw [binLoop_step_found d values t i j backing hlen hj]
      have hlen2 : (backing ++ [(j : Int)]).length = i + 1 := by simp [hlen]
      rcases ih (i + 1) (backing ++ [(j : Int)]) hlen2 (by omega) with
        ⟨r, hr, hrl, hpre, hpost⟩ | ⟨k, bs, hk1, hk2, hkb, hks, hbefore, hres⟩
      · left
        refine ⟨r, hr, by omega, ?_, ?_⟩
        · intro k hk
          rw [hpre k (by omega), List.getElem?_append_left (by omega)]
        · intro k hk1 hk2
          by_cases hki : k = i
          · subst hki
            refine ⟨j, hj, ?_⟩
            rw [hpre k (by omega), List.getElem?_append_right (by omega)]
            simp [hlen]
          · exact hpost k (by omega) (by omega)
      · right
        refine ⟨k, bs, by omega, by omega, hkb, hks, ?_, hres⟩
        intro k2 h1 h2
        by_cases hki : k2 = i
        · subst hki; exact ⟨j, hj⟩
        · exact hbefore k2 (by omega) h2
    · right
      have hs : ∀ j, scanAt d values i ≠ some (.found j) := fun j h => hf ⟨j, h⟩
      refine ⟨i, d.bounds[i], le_refl _, by omega, hb, hs, fun k2 h1 h2 => by omega, ?_⟩
      exact binLoop_step_fail d values t i backing _ hlen hb hs

/-- On a value sequence no longer than the boundary tensors, a successful `Bin`
returns one index per position: the position found by the scan of that
position. -/
theorem Bin_ok_indices (d : DenseEqWidthBinner) (values : Dense)
    (hlen : values.length ≤ d.bounds.length) (r : List Int) (h : d.Bin values = .ok r) :
    r.length = values.length ∧
      ∀ k, k < values.length →
        ∃ j : Nat, scanAt d values k = some (.found j) ∧ r[k]? = some (j : Int) := by
  rcases binLoop_run d values values.length 0 [] rfl (by omega) with
    ⟨r2, hr, hrl, -, hpost⟩ | ⟨k, bs, -, -, -, -, -, hres⟩
  · have hr2 : d.Bin values = .ok r2 := hr
    rw [h] at hr2
    injection hr2 with hr2
    subst hr2
    exact ⟨by omega, fun k hk => hpost k (by omega) (by omega)⟩
  · have hres2 : d.Bin values = .err (.couldNotBin (GetF32 values k) bs) := hres
    rw [h] at hres2
    exact absurd hres2 (by simp)

/-- On a value sequence no longer than the boundary tensors, when the scan of
some position finds nothing, `Bin` returns the error of the first such
position. -/
theorem Bin_first_failure (d : DenseEqWidthBinner) (values : Dense)
    (hlen : values.length ≤ d.bounds.length) (k : Nat) (hk : k < values.length)
    (hs : ∀ j, scanAt d values k ≠ some (.found j)) :
    ∃ (k0 : Nat) (bounds : Dense), k0 ≤ k ∧ d.bounds[k0]? = some bounds ∧
      (∀ j, scanAt d values k0 ≠ some (.found j)) ∧
      (∀ k2, k2 < k0 → ∃ j : Nat, scanAt d values k2 = some (.found j)) ∧
      d.Bin values = .err (.couldNotBin (GetF32 values k0) bounds) := by
  rcases binLoop_run d values values.length 0 [] rfl (by omega) with
    ⟨r2, -, -, -, hpost⟩ | ⟨k0, bs, -, hk0, hb, hs0, hbefore, hres⟩
  · obtain ⟨j, hj, -⟩ := hpost k (by omega) (by omega)
    exact absurd hj (hs j)
  · refine ⟨k0, bs, ?_, hb, hs0, fun k2 h2 => hbefore k2 (by omega) h2, hres⟩
    by_contra hcon
    obtain ⟨j, hj⟩ := hbefore k (by omega) (by omega)
    exact hs j hj

/-- The scan of a position whose value is below the first boundary of its
boundary tensor ends with `below`. -/
theorem scanAt_below (d : DenseEqWidthBinner) (values : Dense) (k : Nat) (bounds : Dense)
    (b0 v : ℚ) (hb : d.bounds[k]? = some bounds) (h0 : bounds[0]? = some b0)
    (hv : values[k]? = some v) (hlt : v < b0) : scanAt d values k = some .below := by
  have hpos : 0 < bounds.length := by
    rcases List.getElem?_eq_some_iff.mp h0 with ⟨h, -⟩
    exact h
  simp only [scanAt, hb, Option.map_some']
  rw [scanLoop_of_below _ _ _ _ hpos]
  rw [GetF32_of_getElem? _ _ _ hv, GetF32_of_getElem? _ _ _ h0]
  exact hlt

/-! ## Dense binner: classification claims -/

/-- C11: on a value sequence with one value per configured dimension, a
successful `Bin` returns an index sequence as long as `values` whose index at
position `k` is the one the scan of dimension `k` found; and when the value of
some dimension cannot be binned, `Bin` returns an error (no index sequence),
namely the error of the first dimension whose value cannot be binned. -/
theorem C11_Bin_all_or_first_error (d : DenseEqWidthBinner) (values : Dense)
    (hlen : values.length = d.bounds.length) :
    (∀ r, d.Bin values = .ok r →
      r.length = values.length ∧
      ∀ k, k < values.length →
        ∃ j : Nat, scanAt d values k = some (.found j) ∧ r[k]? = some (j : Int)) ∧
    (∀ k, k < values.length → (∀ j, scanAt d values k ≠ some (.found j)) →
      ∃ (k0 : Nat) (bounds : Dense), k0 ≤ k ∧ d.bounds[k0]? = some bounds ∧
        (∀ j, scanAt d values k0 ≠ some (.found j)) ∧
        (∀ k2, k2 < k0 → ∃ j : Nat, scanAt d values k2 = some (.found j)) ∧
        d.Bin values = .err (.couldNotBin (GetF32 values k0) bounds)) :=
  ⟨fun r h => Bin_ok_indices d values (le_of_eq hlen) r h,
   fun k hk hs => Bin_first_failure d values (le_of_eq hlen) k hk hs⟩

/-- The instance of C11 on the two-dimensional scenario: the successful call
`Bin([3, 7]) = [1, 2]` has one index per dimension, and in `Bin([15, -1])`,
where the value of dimension `1` cannot be binned, the error is raised at a
dimension not after `1` (it is dimension `0`). -/
theorem C11_Bin_all_or_first_error_witness :
    (([1, 2] : List Int).length = ([3, 7] : Dense).length ∧
      ∀ k, k < ([3, 7] : Dense).length →
        ∃ j : Nat, scanAt scenarioBinner [3, 7] k = some (.found j) ∧
          ([1, 2] : List Int)[k]? = some (j : Int)) ∧
    (∃ (k0 : Nat) (bounds : Dense), k0 ≤ 1 ∧ scenarioBinner.bounds[k0]? = some bounds ∧
        (∀ j, scanAt scenarioBinner [15, -1] k0 ≠ some (.found j)) ∧
        (∀ k2, k2 < k0 → ∃ j : Nat, scanAt scenarioBinner [15, -1] k2 = some (.found j)) ∧
        scenarioBinner.Bin [15, -1] = .err (.couldNotBin (GetF32 [15, -1] k0) bounds)) :=
  ⟨(C11_Bin_all_or_first_error scenarioBinner [3, 7] rfl).1 [1, 2] (by decide),
   (C11_Bin_all_or_first_error scenarioBinner [15, -1] rfl).2 1 (by decide)
     (fun j h => by
        have h2 : scanAt scenarioBinner [15, -1] 1 = some .below := by decide
        rw [h2] at h
        exact absurd h (by simp))⟩

/-- C12: on a value sequence with one value per configured dimension, when
the value of some dimension `k` is below the first boundary of that dimension,
`Bin` returns an out-of-range error (raised at `k` or at an earlier
dimension). -/
theorem C12_Bin_below_first_boundary (d : DenseEqWidthBinner) (values : Dense)
    (hlen : values.length = d.bounds.length) (k : Nat) (bounds : Dense) (b0 v : ℚ)
    (hb : d.bounds[k]? = some bounds) (h0 : bounds[0]? = some b0)
    (hv : values[k]? = some v) (hlt : v < b0) :
    ∃ (k0 : Nat) (bs : Dense), k0 ≤ k ∧ d.bounds[k0]? = some bs ∧
      d.Bin values = .err (.couldNotBin (GetF32 values k0) bs) := by
  have hk : k < values.length := by
    rcases List.getElem?_eq_some_iff.mp hv with ⟨h, -⟩
    exact h
  have hs : ∀ j, scanAt d values k ≠ some (.found j) := by
    intro j h
    rw [scanAt_below d values k bounds b0 v hb h0 hv hlt] at h
    exact absurd h (by simp)
  obtain ⟨k0, bs, h1, h2, -, -, h3⟩ := Bin_first_failure d values (le_of_eq hlen) k hk hs
  exact ⟨k0, bs, h1, h2, h3⟩

/-- The instance of C12 on the two-dimensional scenario with the values
`[3, -1]`: the value of dimension `1` is below the first boundary `0`. -/
theorem C12_Bin_below_first_boundary_witness :
    ∃ (k0 : Nat) (bs : Dense), k0 ≤ 1 ∧ scenarioBinner.bounds[k0]? = some bs ∧
      scenarioBinner.Bin [3, -1] = .err (.couldNotBin (GetF32 [3, -1] k0) bs) :=
  C12_Bin_below_first_boundary scenarioBinner [3, -1] rfl 1 [0, 5, 10, 15] 0 (-1)
    rfl rfl rfl (by norm_num)

/-! ## Construction claims -/

/-- The widths of the two scenarios: `numIntervals = 4`, `low = 0`, `high = 8`
gives the width `2`, and `intervals = [2, 2]`, `low = [0, 0]`,
`high = [10, 10]` gives the widths `[5, 5]`. -/
theorem widths_scenarios :
    (NewEqWidthBinner 4 8 0).width = 2 ∧
    NewDenseEqWidthBinner (T := Dense) Except.ok [2, 2] [0, 0] [10, 10] = .ok scenarioBinner ∧
    scenarioBinner.Widths = [5, 5] := by
  refine ⟨?_, NewDenseEqWidthBinner_scenario, rfl⟩
  norm_num [NewEqWidthBinner]

/-- C13: with `numIntervals > 0` and `high > low` the width stored by
`NewEqWidthBinner` is `(high - low) / numIntervals` and is positive; and when
the three conversions succeed with tensors of one length, the binner returned
by `NewDenseEqWidthBinner` has one width per dimension in `Widths()`, which
for every dimension with interval count `x > 0` and `low[d] < high[d]` is
`(high[d] - low[d]) / x` and is positive. -/
theorem C13_width_formula {T : Type} (ToFloat32 : T → Except BinError Dense)
    (ivR lowR highR : T) (iv low high : Dense) (n : Int) (lo hi : ℚ)
    (hn : 0 < n) (hlohi : lo < hi)
    (hl : ToFloat32 lowR = .ok low) (hh : ToFloat32 highR = .ok high)
    (hi_ok : ToFloat32 ivR = .ok iv)
    (hlen1 : low.length = iv.length) (hlen2 : high.length = iv.length) :
    ((NewEqWidthBinner n hi lo).width = (hi - lo) / (n : ℚ) ∧
      0 < (NewEqWidthBinner n hi lo).width) ∧
    ∃ b : DenseEqWidthBinner, NewDenseEqWidthBinner ToFloat32 ivR lowR highR = .ok b ∧
      b.Widths.length = iv.length ∧
      ∀ (d : Nat) (x l h : ℚ), iv[d]? = some x → low[d]? = some l → high[d]? = some h →
        0 < x → l < h →
        ∃ w : ℚ, b.Widths[d]? = some w ∧ w = (h - l) / x ∧ 0 < w := by
  refine ⟨⟨rfl, NewEqWidthBinner_width_pos n hi lo hn hlohi⟩, _,
    NewDenseEqWidthBinner_ok ToFloat32 ivR lowR highR iv low high hl hh hi_ok hlen1 hlen2,
    by simp [DenseEqWidthBinner.Widths, widthsOf, hlen1, hlen2], ?_⟩
  intro d x l h hid hld hhd hx hlh
  exact ⟨(h - l) / x, widthsOf_getElem? iv low high d x l h hid hld hhd, rfl,
    div_pos (sub_pos.mpr hlh) hx⟩

/-- The instance of C13 at `numIntervals = 4`, `low = 0`, `high = 8` and at
`intervals = [2, 2]`, `low = [0, 0]`, `high = [10, 10]` (float tensors
already), read at dimension `0`. -/
theorem C13_width_formula_witness :
    ((NewEqWidthBinner 4 8 0).width = (8 - 0) / ((4 : Int) : ℚ) ∧
      0 < (NewEqWidthBinner 4 8 0).width) ∧
    ∃ b : DenseEqWidthBinner,
      NewDenseEqWidthBinner (T := Dense) Except.ok [2, 2] [0, 0] [10, 10] = .ok b ∧
      ∃ w : ℚ, b.Widths[0]? = some w ∧ w = (10 - 0) / 2 ∧ 0 < w :=
  let ⟨hs, b, hb, _, hall⟩ :=
    C13_width_formula (T := Dense) Except.ok [2, 2] [0, 0] [10, 10] [2, 2] [0, 0] [10, 10]
      4 0 8 (by norm_num) (by norm_num) rfl rfl rfl rfl rfl
  ⟨hs, b, hb, hall 0 2 0 10 (by simp) (by simp) (by simp) (by norm_num) (by norm_num)⟩

/-- C14: `NewDenseEqWidthBinner` returns the error of the first step that
fails, and so no binner: the conversion of `low`, then of `high`, then of
`intervals`, then the subtraction, then the division.  Whenever one of the
three conversions fails the result is an error. -/
theorem C14_constructor_errors {T : Type} (ToFloat32 : T → Except BinError Dense)
    (ivR lowR highR : T) (e : BinError) :
    (ToFloat32 lowR = .error e → NewDenseEqWidthBinner ToFloat32 ivR lowR highR = .error e) ∧
    (∀ low, ToFloat32 lowR = .ok low → ToFloat32 highR = .error e →
      NewDenseEqWidthBinner ToFloat32 ivR lowR highR = .error e) ∧
    (∀ low high, ToFloat32 lowR = .ok low → ToFloat32 highR = .ok high →
      ToFloat32 ivR = .error e →
      NewDenseEqWidthBinner ToFloat32 ivR lowR highR = .error e) ∧
    (∀ low high iv, ToFloat32 lowR = .ok low → ToFloat32 highR = .ok high →
      ToFloat32 ivR = .ok iv → Sub high low = .error e →
      NewDenseEqWidthBinner ToFloat32 ivR lowR highR = .error e) ∧
    (∀ low high iv spread, ToFloat32 lowR = .ok low → ToFloat32 highR = .ok high →
      ToFloat32 ivR = .ok iv → Sub high low = .ok spread → Div spread iv = .error e →
      NewDenseEqWidthBinner ToFloat32 ivR lowR highR = .error e) ∧
    ((ToFloat32 lowR = .error e ∨ ToFloat32 highR = .error e ∨ ToFloat32 ivR = .error e) →
      ∃ e2, NewDenseEqWidthBinner ToFloat32 ivR lowR highR = .error e2) := by
  have h1 : ToFloat32 lowR = .error e →
      NewDenseEqWidthBinner ToFloat32 ivR lowR highR = .error e := by
    intro h
    simp [NewDenseEqWidthBinner, h, bind, Except.bind]
  have h2 : ∀ low, ToFloat32 lowR = .ok low → ToFloat32 highR = .error e →
      NewDenseEqWidthBinner ToFloat32 ivR lowR highR = .error e := by
    intro low hl h
    simp [NewDenseEqWidthBinner, hl, h, bind, Except.bind]
  have h3 : ∀ low high, ToFloat32 lowR = .ok low → ToFloat32 highR = .ok high →
      ToFloat32 ivR = .error e →
      NewDenseEqWidthBinner ToFloat32 ivR lowR highR = .error e := by
    intro low high hl hh h
    simp [NewDenseEqWidthBinner, hl, hh, h, bind, Except.bind]
  refine ⟨h1, h2, h3, ?_, ?_, ?_⟩
  · intro low high iv hl hh hi h
    simp [NewDenseEqWidthBinner, hl, hh, hi, h, bind, Except.bind]
  · intro low high iv spread hl hh hi hs h
    simp [NewDenseEqWidthBinner, hl, hh, hi, hs, h, bind, Except.bind]
  · intro h
    cases hl : ToFloat32 lowR with
    | error e1 => exact ⟨e1, by simp [NewDenseEqWidthBinner, hl, bind, Except.bind]⟩
    | ok low =>
      cases hh : ToFloat32 highR with
      | error e1 => exact ⟨e1, by simp [NewDenseEqWidthBinner, hl, hh, bind, Except.bind]⟩
      | ok high =>
        rcases h with h | h | h
        · rw [hl] at h; exact absurd h (by simp)
        · rw [hh] at h; exact absurd h (by simp)
        · exact ⟨e, h3 low high hl hh h⟩

/-- The instance of C14 with a conversion that fails on a missing tensor: a
failing conversion of `low` gives that error, and with tensors of different
length the error of the subtraction is returned. -/
theorem C14_constructor_errors_witness :
    NewDenseEqWidthBinner
        (fun t : Option Dense => t.elim (.error (.other "not a float tensor")) .ok)
        (some [2, 2]) none (some [10, 10]) = .error (.other "not a float tensor") ∧
    NewDenseEqWidthBinner (T := Dense) Except.ok [2, 2] [0, 0] [10, 10, 10] =
      .error (.shapeMismatch 3 2) :=
  ⟨(C14_constructor_errors
      (fun t : Option Dense => t.elim (.error (.other "not a float tensor")) .ok)
      (some [2, 2]) none (some [10, 10]) (.other "not a float tensor")).1 rfl,
   (C14_constructor_errors (T := Dense) Except.ok [2, 2] [0, 0] [10, 10, 10]
      (.shapeMismatch 3 2)).2.2.2.1 [0, 0] [10, 10, 10] [2, 2] rfl rfl rfl (by simp [Sub])⟩

/-! ## Scalar binner: the accepted range -/

/-- `Bin` on a binner with non-negative interval count and positive width
rejects every value at or above `Low + (NumIntervals + 1) * width`. -/
theorem Bin_above (e : EqWidthBinner) (v : ℚ) (hn : 0 ≤ e.NumIntervals) (hw : 0 < e.width)
    (hv : e.Low + ((e.NumIntervals : ℚ) + 1) * e.width ≤ v) :
    e.Bin v = .error (.notInRange v e.Low e.High) := by
  have hcast : (((e.NumIntervals + 1).toNat : Nat) : Int) = e.NumIntervals + 1 :=
    Int.toNat_of_nonneg (by omega)
  refine binLoop_none e v _ 0 ?_
  intro k _ hk2
  rw [hcast] at hk2
  have hk : k ≤ e.NumIntervals := by omega
  have hq : (k : ℚ) ≤ (e.NumIntervals : ℚ) := by exact_mod_cast hk
  have : ((k : ℚ) + 1) * e.width ≤ ((e.NumIntervals : ℚ) + 1) * e.width :=
    mul_le_mul_of_nonneg_right (by linarith) hw.le
  linarith

/-- `Bin` on a binner with non-negative interval count: a value in
`[Low, Low + (NumIntervals + 1) * width)` gets the first counter value of
`0, ..., NumIntervals` whose upper edge exceeds it. -/
theorem Bin_first (e : EqWidthBinner) (v : ℚ) (hn : 0 ≤ e.NumIntervals)
    (hlow : e.Low ≤ v) (hhigh : v < e.Low + ((e.NumIntervals : ℚ) + 1) * e.width) :
    ∃ r : Int, e.Bin v = .ok r ∧ 0 ≤ r ∧ r ≤ e.NumIntervals ∧
      v < e.Low + ((r : ℚ) + 1) * e.width ∧
      ∀ k : Int, 0 ≤ k → k < r → ¬ v < e.Low + ((k : ℚ) + 1) * e.width := by
  have hcast : (((e.NumIntervals + 1).toNat : Nat) : Int) = e.NumIntervals + 1 :=
    Int.toNat_of_nonneg (by omega)
  obtain ⟨r, hr, hr1, hr2, hr3, hr4⟩ :=
    binLoop_first e v hlow (e.NumIntervals + 1).toNat 0
      ⟨e.NumIntervals, hn, by rw [hcast]; omega, hhigh⟩
  exact ⟨r, hr, hr1, by rw [hcast] at hr2; omega, hr3, hr4⟩

/-- `Bin` on a binner with non-negative interval count and positive width
returns an index exactly on the values of
`[Low, Low + (NumIntervals + 1) * width)`. -/
theorem Bin_ok_iff (e : EqWidthBinner) (v : ℚ) (hn : 0 ≤ e.NumIntervals) (hw : 0 < e.width) :
    (∃ i, e.Bin v = .ok i) ↔
      e.Low ≤ v ∧ v < e.Low + ((e.NumIntervals : ℚ) + 1) * e.width := by
  constructor
  · rintro ⟨i, hi⟩
    refine ⟨?_, ?_⟩
    · by_contra hcon
      have := binLoop_below e v (not_le.mp hcon) (e.NumIntervals + 1).toNat 0
      have hb : e.Bin v = .error (.notInRange v e.Low e.High) := this
      rw [hi] at hb
      exact absurd hb (by simp)
    · by_contra hcon
      have hb := Bin_above e v hn hw (not_lt.mp hcon)
      rw [hi] at hb
      exact absurd hb (by simp)
  · rintro ⟨h1, h2⟩
    obtain ⟨r, hr, -⟩ := Bin_first e v hn h1 h2
    exact ⟨r, hr⟩

/-- C15: on a scalar binner with `NumIntervals > 0` and `width > 0`, `Bin`
returns an index exactly for the values with
`Low <= value < Low + (NumIntervals + 1) * width`; a returned index is the
least `i` of `[0, NumIntervals]` with `value < Low + (i + 1) * width`; and
when `Low + NumIntervals * width` is `High` (as it is after construction) the
accepted values are those with `Low <= value < High + width`, and the values
of `[High, High + width)` get the index `NumIntervals`. -/
theorem C15_Bin_accepted_range (e : EqWidthBinner) (v : ℚ) (hn : 0 < e.NumIntervals)
    (hw : 0 < e.width) :
    ((∃ i, e.Bin v = .ok i) ↔
      e.Low ≤ v ∧ v < e.Low + ((e.NumIntervals : ℚ) + 1) * e.width) ∧
    (∀ i, e.Bin v = .ok i →
      0 ≤ i ∧ i ≤ e.NumIntervals ∧ v < e.Low + ((i : ℚ) + 1) * e.width ∧
      ∀ k : Int, 0 ≤ k → k < i → ¬ v < e.Low + ((k : ℚ) + 1) * e.width) ∧
    (e.Low + (e.NumIntervals : ℚ) * e.width = e.High →
      ((∃ i, e.Bin v = .ok i) ↔ e.Low ≤ v ∧ v < e.High + e.width) ∧
      (e.High ≤ v → v < e.High + e.width → e.Bin v = .ok e.NumIntervals)) := by
  have hn0 : 0 ≤ e.NumIntervals := le_of_lt hn
  have hiff := Bin_ok_iff e v hn0 hw
  have hleast : ∀ i, e.Bin v = .ok i →
      0 ≤ i ∧ i ≤ e.NumIntervals ∧ v < e.Low + ((i : ℚ) + 1) * e.width ∧
      ∀ k : Int, 0 ≤ k → k < i → ¬ v < e.Low + ((k : ℚ) + 1) * e.width := by
    intro i hi
    obtain ⟨h1, h2⟩ := hiff.mp ⟨i, hi⟩
    obtain ⟨r, hr, hr0, hr1, hr2, hr3⟩ := Bin_first e v hn0 h1 h2
    rw [hi] at hr
    injection hr with hr
    subst hr
    exact ⟨hr0, hr1, hr2, hr3⟩
  refine ⟨hiff, hleast, ?_⟩
  intro hH
  have hsum : e.Low + ((e.NumIntervals : ℚ) + 1) * e.width = e.High + e.width := by
    rw [← hH]; ring
  refine ⟨by rw [← hsum]; exact hiff, ?_⟩
  intro hv1 hv2
  have hlow : e.Low ≤ v := by
    have hnq : (0 : ℚ) < (e.NumIntervals : ℚ) := by exact_mod_cast hn
    have : 0 < (e.NumIntervals : ℚ) * e.width := mul_pos hnq hw
    linarith
  obtain ⟨r, hr, hr0, hr1, hr2, -⟩ := Bin_first e v hn0 hlow (by rw [hsum]; exact hv2)
  have hrn : r = e.NumIntervals := by
    by_contra hne
    have hlt : r + 1 ≤ e.NumIntervals := by omega
    have hq : ((r : ℚ) + 1) ≤ (e.NumIntervals : ℚ) := by exact_mod_cast hlt
    have : ((r : ℚ) + 1) * e.width ≤ (e.NumIntervals : ℚ) * e.width :=
      mul_le_mul_of_nonneg_right hq hw.le
    linarith
  rw [hr, hrn]

/-- The instance of C15 at `numIntervals = 4`, `low = 0`, `high = 8` and the
value `9` of `[high, high + width)`. -/
theorem C15_Bin_accepted_range_witness :
    (NewEqWidthBinner 4 8 0).Bin 9 = .ok (NewEqWidthBinner 4 8 0).NumIntervals :=
  ((C15_Bin_accepted_range (NewEqWidthBinner 4 8 0) 9 (by norm_num [NewEqWidthBinner])
      (by norm_num [NewEqWidthBinner])).2.2 (by norm_num [NewEqWidthBinner])).2
    (by norm_num [NewEqWidthBinner]) (by norm_num [NewEqWidthBinner])

/-! ## The dense scan against the scalar loop -/

/-- On the boundary ladder of a scalar binner the dense scan entered at
position `i + 1` runs like the scalar loop entered at counter `i`: where the
scalar loop returns `r` the scan finds position `r + 1`, and where the scalar
loop returns an error the scan finds nothing. -/
theorem scanLoop_ladder_binLoop (e : EqWidthBinner) (v : ℚ) (m : Nat) :
    ∀ (todo i : Nat), i + 1 + todo ≤ m →
      (∀ r : Int, e.binLoop v todo (i : Int) = .ok r →
        ∃ j : Nat, (j : Int) = r + 1 ∧
          scanLoop v (ladder e.Low e.width m) todo (i + 1) = .found j) ∧
      (∀ err, e.binLoop v todo (i : Int) = .error err →
        ∀ j, scanLoop v (ladder e.Low e.width m) todo (i + 1) ≠ .found j) := by
  intro todo
  induction todo with
  | zero =>
    intro i _
    exact ⟨fun r h => by simp [EqWidthBinner.binLoop] at h, fun _ _ j h => by simp [scanLoop] at h⟩
  | succ t ih =>
    intro i hle
    have h0 : GetF32 (ladder e.Low e.width m) 0 = e.Low := by
      rw [GetF32_of_getElem? _ _ _ (ladder_getElem? e.Low e.width m 0 (by omega))]
      simp
    have h1 : GetF32 (ladder e.Low e.width m) (i + 1) = e.Low + ((i : ℚ) + 1) * e.width := by
      rw [GetF32_of_getElem? _ _ _ (ladder_getElem? e.Low e.width m (i + 1) (by omega))]
      push_cast
      ring
    have hc : (((i : Int) + 1 : Int) : ℚ) = (i : ℚ) + 1 := by push_cast; ring
    obtain ⟨ih1, ih2⟩ := ih (i + 1) (by omega)
    have hi1 : ((i + 1 : Nat) : Int) = (i : Int) + 1 := by push_cast; ring
    rw [hi1] at ih1 ih2
    simp only [EqWidthBinner.binLoop, scanLoop, h0, h1, hc]
    by_cases hl : v < e.Low
    · simp only [hl, if_true]
      exact ⟨fun r h => by simp at h, fun _ _ j h => by simp at h⟩
    · simp only [hl, if_false]
      by_cases hb : v < e.Low + ((i : ℚ) + 1) * e.width
      · simp only [hb, if_true]
        refine ⟨?_, fun _ h => by simp at h⟩
        intro r h
        injection h with h
        exact ⟨i + 1, by rw [← h]; push_cast; ring, rfl⟩
      · simp only [hb, if_false]
        exact ⟨ih1, ih2⟩

/-- The whole dense scan of a value against the ladder of `n + 2` boundaries
of a scalar binner with `n` intervals, compared with the scalar `Bin`. -/
theorem scanLoop_ladder_Bin (e : EqWidthBinner) (v : ℚ) (n : Nat)
    (hn : e.NumIntervals = (n : Int)) :
    (∀ r : Int, e.Bin v = .ok r →
      ∃ j : Nat, (j : Int) = r + 1 ∧
        scanLoop v (ladder e.Low e.width (n + 2)) (n + 2) 0 = .found j) ∧
    (∀ err, e.Bin v = .error err →
      ∀ j, scanLoop v (ladder e.Low e.width (n + 2)) (n + 2) 0 ≠ .found j) := by
  have h0 : GetF32 (ladder e.Low e.width (n + 2)) 0 = e.Low := by
    rw [GetF32_of_getElem? _ _ _ (ladder_getElem? e.Low e.width (n + 2) 0 (by omega))]
    simp
  have htodo : (e.NumIntervals + 1).toNat = n + 1 := by omega
  obtain ⟨s1, s2⟩ := scanLoop_ladder_binLoop e v (n + 2) (n + 1) 0 (by omega)
  have hstep : scanLoop v (ladder e.Low e.width (n + 2)) (n + 2) 0 =
      if v < e.Low then .below else scanLoop v (ladder e.Low e.width (n + 2)) (n + 1) 1 := by
    show scanLoop v (ladder e.Low e.width (n + 2)) (n + 1 + 1) 0 = _
    simp only [scanLoop, h0]
    by_cases hl : v < e.Low
    · simp [hl]
    · simp [hl]
  simp only [EqWidthBinner.Bin, htodo]
  rw [hstep]
  by_cases hl : v < e.Low
  · simp only [hl, if_true]
    refine ⟨?_, fun _ _ j h => by simp at h⟩
    intro r h
    rw [binLoop_below e v hl] at h
    exact absurd h (by simp)
  · simp only [hl, if_false]
    exact ⟨by simpa using s1, by simpa using s2⟩

/-- `Bin` of a one-value sequence on a binner whose first boundary tensor is
`bounds`: the found position, or the error of the position. -/
theorem Bin_single (d : DenseEqWidthBinner) (v : ℚ) (bounds : Dense)
    (hb : d.bounds[0]? = some bounds) :
    (∀ j, scanLoop v bounds bounds.length 0 = .found j → d.Bin [v] = .ok [(j : Int)]) ∧
    ((∀ j, scanLoop v bounds bounds.length 0 ≠ .found j) →
      d.Bin [v] = .err (.couldNotBin v bounds)) := by
  have hat : scanAt d [v] 0 = some (scanLoop v bounds bounds.length 0) := by
    simp [scanAt, hb, GetF32]
  constructor
  · intro j hj
    have := binLoop_step_found d [v] 0 0 j [] rfl (by rw [hat, hj])
    simpa [DenseEqWidthBinner.Bin, DenseEqWidthBinner.binLoop] using this
  · intro hs
    have := binLoop_step_fail d [v] 0 0 [] bounds rfl hb
      (fun j h => hs j (by rw [hat] at h; exact Option.some.inj h))
    simpa [DenseEqWidthBinner.Bin, GetF32] using this

/-! ## Scalar and dense binner compared -/

/-- C16: a dense binner built from the one-element tensors `[n]`, `[low]`,
`[high]` with `n > 0` and `high > low`, and the scalar binner built from `n`,
`high`, `low`, accept the same values: the scalar `Bin(v)` returns `i` exactly
when the dense `Bin([v])` returns `[i + 1]`, one returns an error exactly when
the other does, and the dense call does not panic. -/
theorem C16_dense_index_is_scalar_plus_one {T : Type}
    (ToFloat32 : T → Except BinError Dense) (ivR lowR highR : T) (n : Nat)
    (low high v : ℚ) (_hn : 0 < n) (_hlh : low < high)
    (hl : ToFloat32 lowR = .ok [low]) (hh : ToFloat32 highR = .ok [high])
    (hi : ToFloat32 ivR = .ok [(n : ℚ)]) :
    ∃ b : DenseEqWidthBinner, NewDenseEqWidthBinner ToFloat32 ivR lowR highR = .ok b ∧
      (∀ i : Int, (NewEqWidthBinner (n : Int) high low).Bin v = .ok i ↔
        b.Bin [v] = .ok [i + 1]) ∧
      ((∃ e, (NewEqWidthBinner (n : Int) high low).Bin v = .error e) ↔
        (∃ e, b.Bin [v] = .err e)) ∧
      b.Bin [v] ≠ .panic := by
  refine ⟨_, NewDenseEqWidthBinner_ok ToFloat32 ivR lowR highR [(n : ℚ)] [low] [high]
    hl hh hi rfl rfl, ?_⟩
  have hw : (widthsOf [(n : ℚ)] [low] [high])[0]? = some ((high - low) / (n : ℚ)) :=
    widthsOf_getElem? _ _ _ 0 _ low high rfl rfl rfl
  have hbound : boundOf [(n : ℚ)] [low] (widthsOf [(n : ℚ)] [low] [high]) 0 =
      ladder low ((high - low) / (n : ℚ)) (n + 2) :=
    boundOf_ladder _ _ _ 0 n low _ rfl rfl hw
  have hb : (List.map (boundOf [(n : ℚ)] [low] (widthsOf [(n : ℚ)] [low] [high]))
      (List.range [(n : ℚ)].length))[0]? = some (ladder low ((high - low) / (n : ℚ)) (n + 2)) := by
    simp [hbound]
  have hwe : (NewEqWidthBinner (n : Int) high low).width = (high - low) / (n : ℚ) := by
    simp [NewEqWidthBinner]
  have hle : (NewEqWidthBinner (n : Int) high low).Low = low := rfl
  obtain ⟨s1, s2⟩ := scanLoop_ladder_Bin (NewEqWidthBinner (n : Int) high low) v n rfl
  rw [hwe, hle] at s1 s2
  obtain ⟨b1, b2⟩ := Bin_single
    { Intervals := [(n : ℚ)], Low := [low], High := [high],
      widths := widthsOf [(n : ℚ)] [low] [high],
      bounds := List.map (boundOf [(n : ℚ)] [low] (widthsOf [(n : ℚ)] [low] [high]))
        (List.range [(n : ℚ)].length) } v _ hb
  rw [ladder_length] at b1 b2
  have fwd_ok : ∀ i : Int, (NewEqWidthBinner (n : Int) high low).Bin v = .ok i →
      DenseEqWidthBinner.Bin
        { Intervals := [(n : ℚ)], Low := [low], High := [high],
          widths := widthsOf [(n : ℚ)] [low] [high],
          bounds := List.map (boundOf [(n : ℚ)] [low] (widthsOf [(n : ℚ)] [low] [high]))
            (List.range [(n : ℚ)].length) } [v] = .ok [i + 1] := by
    intro i hi
    obtain ⟨j, hj, hs⟩ := s1 i hi
    rw [b1 j hs, hj]
  have fwd_err : ∀ e, (NewEqWidthBinner (n : Int) high low).Bin v = .error e →
      DenseEqWidthBinner.Bin
        { Intervals := [(n : ℚ)], Low := [low], High := [high],
          widths := widthsOf [(n : ℚ)] [low] [high],
          bounds := List.map (boundOf [(n : ℚ)] [low] (widthsOf [(n : ℚ)] [low] [high]))
            (List.range [(n : ℚ)].length) } [v] =
        .err (.couldNotBin v (ladder low ((high - low) / (n : ℚ)) (n + 2))) :=
    fun e he => b2 (s2 e he)
  refine ⟨?_, ?_, ?_⟩
  · intro i
    refine ⟨fwd_ok i, ?_⟩
    intro hd
    cases hsc : (NewEqWidthBinner (n : Int) high low).Bin v with
    | ok i2 =>
      have := fwd_ok i2 hsc
      rw [hd] at this
      injection this with this
      have h2 : i + 1 = i2 + 1 := List.head_eq_of_cons_eq this
      congr 1
      omega
    | error e =>
      have := fwd_err e hsc
      rw [hd] at this
      exact absurd this (by simp)
  · constructor
    · rintro ⟨e, he⟩
      exact ⟨_, fwd_err e he⟩
    · rintro ⟨e, he⟩
      cases hsc : (NewEqWidthBinner (n : Int) high low).Bin v with
      | ok i2 =>
        have := fwd_ok i2 hsc
        rw [he] at this
        exact absurd this (by simp)
      | error e2 => exact ⟨e2, rfl⟩
  · cases hsc : (NewEqWidthBinner (n : Int) high low).Bin v with
    | ok i2 => rw [fwd_ok i2 hsc]; simp
    | error e => rw [fwd_err e hsc]; simp

/-- The instance of C16 at `n = 4`, `low = 0`, `high = 8` (float tensors
already) and the value `8`: the scalar index is `4`, the dense index `5`. -/
theorem C16_dense_index_is_scalar_plus_one_witness :
    ∃ b : DenseEqWidthBinner,
      NewDenseEqWidthBinner (T := Dense) Except.ok [((4 : Nat) : ℚ)] [0] [8] = .ok b ∧
      (NewEqWidthBinner ((4 : Nat) : Int) 8 0).Bin 8 = .ok 4 ∧
      b.Bin [8] = .ok [4 + 1] :=
  let ⟨b, hb, hok, _, _⟩ :=
    C16_dense_index_is_scalar_plus_one (T := Dense) Except.ok [((4 : Nat) : ℚ)] [0] [8] 4 0 8 8
      (by norm_num) (by norm_num) rfl rfl rfl
  have hs : (NewEqWidthBinner ((4 : Nat) : Int) 8 0).Bin 8 = .ok 4 := by
    norm_num [EqWidthBinner.Bin, EqWidthBinner.binLoop, NewEqWidthBinner]
  ⟨b, hb, hs, (hok 4).mp hs⟩

/-- C17: when the three conversions succeed with tensors of one length, every
index the built binner returns for a dimension with a whole interval count
`n` lies in `[1, n + 1]`: the index `0` is never returned. -/
theorem C17_dense_index_range {T : Type} (ToFloat32 : T → Except BinError Dense)
    (ivR lowR highR : T) (iv low high : Dense)
    (hl : ToFloat32 lowR = .ok low) (hh : ToFloat32 highR = .ok high)
    (hi : ToFloat32 ivR = .ok iv)
    (hlen1 : low.length = iv.length) (hlen2 : high.length = iv.length) :
    ∃ b : DenseEqWidthBinner, NewDenseEqWidthBinner ToFloat32 ivR lowR highR = .ok b ∧
      ∀ (values : Dense) (r : List Int), b.Bin values = .ok r →
        ∀ (k n : Nat) (idx : Int), iv[k]? = some (n : ℚ) → r[k]? = some idx →
          1 ≤ idx ∧ idx ≤ (n : Int) + 1 := by
  refine ⟨_, NewDenseEqWidthBinner_ok ToFloat32 ivR lowR highR iv low high hl hh hi hlen1 hlen2,
    ?_⟩
  intro values r hr k n idx hik hrk
  have hvlen : values.length ≤ (List.map (boundOf iv low (widthsOf iv low high))
      (List.range iv.length)).length := by
    by_contra hcon
    exact binLoop_long _ values values.length 0 [] (by omega)
      (by show (List.map (boundOf iv low (widthsOf iv low high))
            (List.range iv.length)).length < 0 + values.length
          omega) r hr
  obtain ⟨hrl, hall⟩ := Bin_ok_indices _ values hvlen r hr
  have hk : k < values.length := by
    rcases List.getElem?_eq_some_iff.mp hrk with ⟨h, -⟩
    omega
  obtain ⟨j, hj, hrj⟩ := hall k hk
  rw [hrk] at hrj
  injection hrj with hrj
  have hkiv : k < iv.length := by
    rcases List.getElem?_eq_some_iff.mp hik with ⟨h, -⟩
    exact h
  have hlk : low[k]? = some (low[k]) := List.getElem?_eq_getElem (by omega)
  have hhk : high[k]? = some (high[k]) := List.getElem?_eq_getElem (by omega)
  have hw := widthsOf_getElem? iv low high k _ _ _ hik hlk hhk
  have hbk : (List.map (boundOf iv low (widthsOf iv low high)) (List.range iv.length))[k]? =
      some (ladder (low[k]) ((high[k] - low[k]) / (n : ℚ)) (n + 2)) := by
    rw [List.getElem?_map, List.getElem?_range hkiv]
    simp only [Option.map_some']
    rw [boundOf_ladder iv low _ k n _ _ hik hlk hw]
  simp only [scanAt, hbk, Option.map_some', Option.some.injEq] at hj
  obtain ⟨-, h2, h3, h4, -⟩ := scanLoop_found _ _ _ _ _ hj
  rw [ladder_length] at h2
  have hj0 : j ≠ 0 := by
    rintro rfl
    exact h3 h4
  subst hrj
  constructor
  · have : 1 ≤ j := by omega
    exact_mod_cast this
  · have : j ≤ n + 1 := by omega
    exact_mod_cast this

/-- The instance of C17 at `intervals = [2, 2]`, `low = [0, 0]`,
`high = [10, 10]` (float tensors already): an index returned for dimension
`0` lies in `[1, 3]`. -/
theorem C17_dense_index_range_witness :
    ∃ b : DenseEqWidthBinner,
      NewDenseEqWidthBinner (T := Dense) Except.ok [2, 2] [0, 0] [10, 10] = .ok b ∧
      ∀ (values : Dense) (r : List Int), b.Bin values = .ok r →
        ∀ idx : Int, r[0]? = some idx → 1 ≤ idx ∧ idx ≤ ((2 : Nat) : Int) + 1 :=
  let ⟨b, hb, hall⟩ :=
    C17_dense_index_range (T := Dense) Except.ok [2, 2] [0, 0] [10, 10] [2, 2] [0, 0] [10, 10]
      rfl rfl rfl rfl rfl
  ⟨b, hb, fun values r hr idx hidx => hall values r hr 0 2 idx (by simp) hidx⟩

end Discretize
